import Mathlib

/-!
Verification of the 1brc Go implementation against its specification.

This file gives a shallow embedding of the program's core pipeline:

* `fastParseFloat64`, `solveLine` — the line parser and per-line fold
  (identical in the single-threaded iteration and the concurrent one);
* `processBufGo` / `processBuffer` — the chunk scanner of the concurrent
  version (`processBuffer` in `main.go`), which stops at `fi >= len(b)`;
* `processBdGo` — the inline chunk scanner of the single-threaded
  version, which stops at `fi > li`;
* `readLoopConc` / `readChunksConcFile` — the chunked read loop of the
  concurrent `solve1brc`, producing the byte ranges handed to workers;
* `readLoopSingle` / `runSingleFile` — the read-and-process loop of the
  single-threaded `solve1brc`;
* `mergeStep` / `mergeShards` / `printSolutions` — the merge and report
  step (`printSolutions` in `main.go`), and `printMap` — the shared
  sort-and-format loop;
* `runMainModel` — the top-level `main` with its `panicHandler` guard.

Modelling conventions, stated once:

* Byte slices are `List Char` (the input is ASCII; `Char.toNat` is the
  byte value, matching Go's `int(b[i])`).
* A Go runtime panic from an out-of-range index is modelled by `none` in
  an `Option` result.  A panic that escapes to `main` is recovered by the
  deferred `panicHandler` (which only logs), so the process exits 0; an
  unrecovered panic in a worker goroutine aborts the process with Go's
  runtime exit status 2.  `runMainModel` encodes exactly this.
* The program stores temperatures in `float64`.  Well-formed values are
  signed multiples of 0.1, and the specification's data model calls for
  fixed-point values, so the embedding represents every temperature,
  minimum, maximum and accumulator as an exact integer count of tenths
  (`ℤ`), and the mean computation `math.Round(10*acc/count)/10` as the
  corresponding exact rational computation.  `math.Round` is documented
  as rounding half away from zero, embedded as `goRound`.  IEEE-754
  rounding error is outside this model.
* Go's `int` is 64-bit; the digit-accumulation in `fastParseFloat64` is
  modelled on unbounded `ℤ`, since no claim involves integer parts long
  enough to wrap.
* Go maps are association lists in first-insertion order.  Go map
  iteration order is unspecified; where a claim depends on it the
  theorems quantify over, or exhibit, explicit orders.
* `f.Read` on a regular file is modelled as delivering
  `min (readBufferSize - carry) remaining` bytes, and `(0, io.EOF)` once
  the file is exhausted.  The read loops are written with an explicit
  fuel parameter (`file.length + 1` bounds the number of iterations,
  since every non-EOF iteration consumes at least one byte).
-/

namespace OneBrc

/-- 4 MiB read pages, `readBufferSize` in the source. -/
def readBufferSize : ℕ := 4 * 1024 * 1024

/-- Skip distance after a newline, `educatedJump` in the source. -/
def educatedJump : ℕ := 3

/-- Number of worker goroutines, `workerNum` in the source. -/
def workerNum : ℕ := 16

/-- `solutionItem` from the source: per-station running statistics.
`min`, `max` and `acc` are `float64` in Go, modelled as exact tenths;
`count` is a Go `int`, only ever incremented, modelled as `ℕ`.
The Go zero value `&solutionItem{}` is `⟨0, 0, 0, 0⟩`. -/
structure solutionItem where
  min : ℤ
  max : ℤ
  count : ℕ
  acc : ℤ
deriving DecidableEq

/-- The Go zero value `solutionItem{}`. -/
def zeroItem : solutionItem := ⟨0, 0, 0, 0⟩

/-- `map[string]*solutionItem`, as an association list in first-insertion
order with unique keys. -/
abbrev SolMap : Type := List (String × solutionItem)

/-- Go map read `solution[name]` (with comma-ok). -/
def lookupS : SolMap → String → Option solutionItem
  | [], _ => none
  | (k', v) :: rest, k => if k' = k then some v else lookupS rest k

/-- Go map write `solution[name] = s`: update in place, or append a new
key in insertion order. -/
def setS : SolMap → String → solutionItem → SolMap
  | [], k, v => [(k, v)]
  | (k', v') :: rest, k, v =>
      if k' = k then (k', v) :: rest else (k', v') :: setS rest k v

/-- Go `int(b[i]) - 48` on an ASCII byte. -/
def digitVal (c : Char) : ℤ := (c.toNat : ℤ) - 48

/-- The integer-part loop of `fastParseFloat64`: consume bytes into `num`
until a `'.'` is found, returning the accumulated value and the bytes
after the dot.  Running off the end of the slice is Go's index panic,
modelled `none`. -/
def fpfLoop : List Char → ℤ → Option (ℤ × List Char)
  | [], _ => none
  | c :: cs, num => if c = '.' then some (num, cs) else fpfLoop cs (num * 10 + digitVal c)

/-- `fastParseFloat64` from the source, with the result in exact tenths:
the Go value is `num + 0.1*(b[i]-48)` (negated after a leading `'-'`),
i.e. `(10*num + d)/10`.  The function performs no validation: a byte that
is not a digit still contributes `byte - 48`, and a missing `'.'`, an
empty slice, or nothing after the `'.'` panics (`none`). -/
def fastParseFloat64 (b : List Char) : Option ℤ :=
  match b with
  | [] => none
  | c :: cs =>
    let neg := c = '-'
    let b' := if neg then cs else b
    match fpfLoop b' 0 with
    | none => none
    | some (num, rest) =>
      match rest with
      | [] => none
      | d :: _ => some (if neg then -(num * 10 + digitVal d) else num * 10 + digitVal d)

/-- The semicolon scan at the top of `solveLine`: index of the first `';'`,
`none` when the scan runs off the end of the line (Go index panic). -/
def findSemiIdx : List Char → Option ℕ
  | [] => none
  | c :: cs => if c = ';' then some 0 else (findSemiIdx cs).map (· + 1)

/-- The fold body of `solveLine` on an existing (or freshly zero-inserted)
item: `acc += num; count += 1; if max < num { max = num }; if min > num
{ min = num }`. -/
def updateItem (s : solutionItem) (num : ℤ) : solutionItem :=
  { min := if s.min > num then num else s.min
    max := if s.max < num then num else s.max
    count := s.count + 1
    acc := s.acc + num }

/-- `solveLine` from the source.  Scans for `';'` (panicking if absent),
looks the name up — inserting the zero value on a miss — parses the
number, and folds it in.  The Go function's `error` result is always
`nil`; `none` here models a panic escaping it. -/
def solveLine (line : List Char) (sol : SolMap) : Option SolMap :=
  match findSemiIdx line with
  | none => none
  | some i =>
    let name := String.mk (line.take i)
    let s := (lookupS sol name).getD zeroItem
    match fastParseFloat64 (line.drop (i + 1)) with
    | none => none
    | some num => some (setS sol name (updateItem s num))

/-- Go slice expression `b[ri:fi]`. -/
def sliceGo (b : List Char) (ri fi : ℕ) : List Char := (b.drop ri).take (fi - ri)

/-- The loop of `processBuffer` in the concurrent version: front index
`fi`, rear index `ri`, exit at `fi >= len(b)`, `solveLine` at each
newline followed by the `educatedJump`.  Fuel-indexed; `b.length + 1`
fuel always suffices since `fi` grows every iteration. -/
def processBufGo : ℕ → List Char → ℕ → ℕ → SolMap → Option SolMap
  | 0, _, _, _, _ => none
  | fuel + 1, b, fi, ri, sol =>
    if h : fi < b.length then
      if b.get ⟨fi, h⟩ = '\n' then
        match solveLine (sliceGo b ri fi) sol with
        | none => none
        | some sol' => processBufGo fuel b (fi + educatedJump + 1) (fi + 1) sol'
      else processBufGo fuel b (fi + 1) ri sol
    else some sol

/-- `processBuffer` from the source, applied by a worker to its chunk. -/
def processBuffer (b : List Char) (sol : SolMap) : Option SolMap :=
  processBufGo (b.length + 1) b 0 0 sol

/-- The inline scan loop of the single-threaded `solve1brc`: identical to
`processBufGo` except that the exit condition is `fi > li` (the index of
the last newline, which is therefore scanned and processed).  The buffer
access `b[fi]` is in range whenever `fi ≤ li < len b`; an out-of-range
access would be a Go panic, modelled `none`. -/
def processBdGo : ℕ → List Char → ℕ → ℕ → ℕ → SolMap → Option SolMap
  | 0, _, _, _, _, _ => none
  | fuel + 1, b, li, fi, ri, sol =>
    if fi > li then some sol
    else
      match b.get? fi with
      | none => none
      | some c =>
        if c = '\n' then
          match solveLine (sliceGo b ri fi) sol with
          | none => none
          | some sol' => processBdGo fuel b li (fi + educatedJump + 1) (fi + 1) sol'
        else processBdGo fuel b li (fi + 1) ri sol

/-- The backward scan `for readBuffer[li] != '\n' { li-- }` from index
`blen - 1`: index of the last `'\n'`, or `none` when there is none and
`li` underruns index 0 (Go index panic). -/
def lastNLAux : List Char → Option ℕ
  | [] => none
  | c :: cs =>
    match lastNLAux cs with
    | some j => some (j + 1)
    | none => if c = '\n' then some 0 else none

/-- The read loop of the concurrent `solve1brc`, yielding the chunks
handed to workers.  Each iteration reads into the staging buffer after
the carried-over bytes, locates the last newline `li`, and submits
`readBuffer[:li]` — the bytes strictly before the newline — as the
chunk; bytes after `li` are carried over.  At EOF the loop stops and any
carry-over is discarded.  `none` models the reader's panic when no
newline is found (and fuel exhaustion, unreachable at
`file.length + 1`). -/
def readLoopConc : ℕ → List Char → List Char → Option (List (List Char))
  | 0, _, _ => none
  | fuel + 1, remaining, carry =>
    if remaining = [] then some []
    else
      let n := min (readBufferSize - carry.length) remaining.length
      let buffer := carry ++ remaining.take n
      match lastNLAux buffer with
      | none => none
      | some li =>
        match readLoopConc fuel (remaining.drop n) (buffer.drop (li + 1)) with
        | none => none
        | some rest => some (buffer.take li :: rest)

/-- The chunks produced by the concurrent reader on a whole file. -/
def readChunksConcFile (file : List Char) : Option (List (List Char)) :=
  readLoopConc (file.length + 1) file []

/-- The read-and-process loop of the single-threaded `solve1brc`: same
reading and carry-over as the concurrent reader, but the complete span —
including the newline at `li` — is scanned in place by the inline loop
(`processBdGo`). -/
def readLoopSingle : ℕ → List Char → List Char → SolMap → Option SolMap
  | 0, _, _, _ => none
  | fuel + 1, remaining, carry, sol =>
    if remaining = [] then some sol
    else
      let n := min (readBufferSize - carry.length) remaining.length
      let buffer := carry ++ remaining.take n
      match lastNLAux buffer with
      | none => none
      | some li =>
        match processBdGo (buffer.length + 1) buffer li 0 0 sol with
        | none => none
        | some sol' => readLoopSingle fuel (remaining.drop n) (buffer.drop (li + 1)) sol'

/-- The single-threaded `solve1brc` aggregation on a whole file (the map
it holds when the read loop ends). -/
def runSingleFile (file : List Char) : Option SolMap :=
  readLoopSingle (file.length + 1) file [] []

/-- Go's `math.Round`: the nearest integer, rounding half away from
zero (the specification's formula, on exact rationals). -/
def goRound (q : ℚ) : ℤ :=
  if q < 0 then -⌊-q + 1 / 2⌋ else ⌊q + 1 / 2⌋

/-- The `float64` value represented by a count of tenths. -/
def goFloat (t : ℤ) : ℚ := (t : ℚ) / 10

/-- Rounding half away from zero of the exact quotient `a / c`, computed
on integers: `(2|a| + c) / (2c)` in flooring natural division carries
the sign of `a`.  `roundAwayDiv_eq_goRound` proves it equal to the
rational `goRound (a / c)`. -/
def roundAwayDiv (a : ℤ) (c : ℕ) : ℤ :=
  if a < 0 then -(((2 * a.natAbs + c) / (2 * c) : ℕ) : ℤ)
  else (((2 * a.natAbs + c) / (2 * c) : ℕ) : ℤ)

/-- Decimal digit character, `'0' + d`. -/
def digitChar (d : ℕ) : Char := Char.ofNat (48 + d)

/-- Decimal digits of a natural number, most significant first
(fuel-indexed; `n + 1` fuel suffices). -/
def natChars : ℕ → ℕ → List Char
  | 0, _ => []
  | fuel + 1, n =>
    if n < 10 then [digitChar n] else natChars fuel (n / 10) ++ [digitChar (n % 10)]

/-- Decimal representation of a natural number. -/
def natStrGo (n : ℕ) : List Char := natChars (n + 1) n

/-- `fmt.Printf("%.1f", x)` on a value that is an exact count `t` of
tenths: optional sign, integer part, `'.'`, and exactly one tenths
digit. -/
def fmtTenths (t : ℤ) : String :=
  String.mk ((if t < 0 then ['-'] else []) ++
    natStrGo (t.natAbs / 10) ++ ['.'] ++ [digitChar (t.natAbs % 10)])

/-- The mean computed in the report loop,
`math.Round(10*item.acc/float64(item.count)) / 10`, as a count of
tenths: the exact value of `10*acc/count` is `accTenths / count`, and
`math.Round` rounds it half away from zero (`roundAwayDiv`, proved
equal to the rational formula `goRound (10 * goFloat acc / count)` in
`roundAwayDiv_eq_goRound`). -/
def meanTenths (it : solutionItem) : ℤ :=
  roundAwayDiv it.acc it.count

/-- One line of the report:
`fmt.Printf("%s=%.1f/%.1f/%.1f\n", k, item.min, mean, item.max)`. -/
def fmtLine (k : String) (it : solutionItem) : String :=
  k ++ "=" ++ fmtTenths it.min ++ "/" ++ fmtTenths (meanTenths it) ++ "/" ++ fmtTenths it.max

/-- Byte-wise lexicographic comparison on character lists: Go's `<=` on
strings (ASCII bytes compare as their code points). -/
def leChars : List Char → List Char → Bool
  | [], _ => true
  | _ :: _, [] => false
  | c :: cs, d :: ds =>
    if c.toNat < d.toNat then true
    else if d.toNat < c.toNat then false
    else leChars cs ds

/-- Go `<=` on strings. -/
def leStr (a b : String) : Bool := leChars a.data b.data

/-- Insertion into a sorted list, ascending by `leStr`. -/
def insertSorted (x : String) : List String → List String
  | [] => [x]
  | y :: ys => if leStr x y then x :: y :: ys else y :: insertSorted x ys

/-- `slices.Sort` on station names: sorts ascending by byte-wise
lexicographic order (modelled by insertion sort, which agrees with any
correct sort on the distinct keys of a map). -/
def sortStrings : List String → List String
  | [] => []
  | x :: xs => insertSorted x (sortStrings xs)

/-- The key collection and `slices.Sort` of the report step: station
names in byte-wise ascending order. -/
def sortKeys (m : SolMap) : List String :=
  sortStrings (m.map Prod.fst)

/-- The sort-and-print loop shared by both versions: emit one formatted
line per station, keys ascending. -/
def printMap (m : SolMap) : List String :=
  (sortKeys m).map (fun k => fmtLine k ((lookupS m k).getD zeroItem))

/-- The merge body of `printSolutions` for a station absent from the
accumulator: `item = v; solution[k] = item` followed by the four merge
assignments, which alias `item` and `v` — doubling `acc` and `count`
and leaving `min`/`max` unchanged. -/
def mergeItemNew (v : solutionItem) : solutionItem :=
  { min := v.min, max := v.max, count := v.count + v.count, acc := v.acc + v.acc }

/-- The merge body of `printSolutions` for a station already present. -/
def mergeItemOld (item v : solutionItem) : solutionItem :=
  { min := if item.min > v.min then v.min else item.min
    max := if item.max < v.max then v.max else item.max
    count := item.count + v.count
    acc := item.acc + v.acc }

/-- One shard folded into the accumulated solution, entry by entry, in
the shard's iteration order. -/
def mergeStep (sol : SolMap) (shard : SolMap) : SolMap :=
  shard.foldl
    (fun acc kv =>
      match lookupS acc kv.1 with
      | none => setS acc kv.1 (mergeItemNew kv.2)
      | some item => setS acc kv.1 (mergeItemOld item kv.2))
    sol

/-- All shards folded into one map, in the given order (Go iterates the
`solutions` slice in index order; map iteration order inside each shard
is the shard's entry order here). -/
def mergeShards (shards : List SolMap) : SolMap := shards.foldl mergeStep []

/-- `printSolutions` from the source: merge every worker's map, then sort
and emit. -/
def printSolutions (shards : List SolMap) : List String :=
  printMap (mergeShards shards)

/-- The whole single-threaded `solve1brc` output. -/
def solve1brcSingleOut (file : List Char) : Option (List String) :=
  (runSingleFile file).map printMap

/-- Observable outcome of the concurrent `solve1brc`. -/
inductive RunOutcome where
  | ok (out : List String)
  | readerPanic
  | workerPanic
deriving DecidableEq

/-- The concurrent `solve1brc` on a file, under the schedule in which
every chunk is processed into a fresh worker map (admissible whenever
there are at most `workerNum` chunks; merging is unaffected by the empty
maps of idle workers). -/
def concOutcome (file : List Char) : RunOutcome :=
  match readChunksConcFile file with
  | none => .readerPanic
  | some chunks =>
    match chunks.mapM (fun c => processBuffer c []) with
    | none => .workerPanic
    | some shards => .ok (printSolutions shards)

/-- The top level `main` with `defer panicHandler()`: exit status and
emitted lines.  `none` for the open result models `os.Open` failing, in
which case `solve1brc` returns the error, `gracefullyHanldeErrors`
panics, and `panicHandler` recovers and logs — so `main` returns
normally and the process exits 0 with no output.  A reader panic (in the
main goroutine) is likewise recovered: exit 0, no output.  An
unrecovered worker-goroutine panic aborts the process with Go's runtime
status 2. -/
def runMainModel (openRes : Option (List Char)) : ℕ × List String :=
  match openRes with
  | none => (0, [])
  | some f =>
    match concOutcome f with
    | .ok out => (0, out)
    | .readerPanic => (0, [])
    | .workerPanic => (2, [])

/-! Concrete input files used by the evaluation theorems. -/

/-- Two newline-terminated records. -/
def fileAB : List Char := "A;1.0\nB;2.0\n".toList

/-- The chunk the concurrent reader produces from `fileAB`: everything
strictly before the last newline. -/
def chunkAB : List Char := "A;1.0\nB;2.0".toList

/-- A complete record followed by a record with no trailing newline. -/
def fileBA : List Char := "B;2.0\nA;1.0".toList

/-- The three-line scenario from the specification. -/
def fileScenario : List Char := "Paris;10.5\nParis;12.3\nOslo;-2.1\n".toList

/-- A file whose first line has no `';'`. -/
def fileNoSemi : List Char := "AB\nC;1.0\n".toList

/-- A file with a non-digit byte in a temperature field. -/
def fileBadDigit : List Char := "A;x.5\nB;2.0\n".toList

/-- A file with no newline at all. -/
def fileNoNL : List Char := "A;1.0".toList

/-- The station-level invariant of the specification: whenever
`count > 0`, `minimum ≤ maximum`, for every entry of a map. -/
def EntriesOK (m : SolMap) : Prop :=
  ∀ p ∈ m, 0 < p.2.count → p.2.min ≤ p.2.max

instance (m : SolMap) : Decidable (EntriesOK m) :=
  List.decidableBAll _ m

/-- A string whose final characters are a `'.'` followed by exactly one
digit, with no other `'.'` before it: one fractional digit. -/
def OneFrac (s : String) : Prop :=
  ∃ pre d, s.data = pre ++ ['.', d] ∧ d.isDigit = true ∧ '.' ∉ pre

/-! Helper lemmas. -/

theorem findSemiIdx_eq_none {line : List Char} (h : ';' ∉ line) :
    findSemiIdx line = none := by
  induction line with
  | nil => rfl
  | cons c cs ih =>
    have hc : ¬(c = ';') := by intro hx; exact h (by simp [hx])
    have hcs : ';' ∉ cs := fun hx => h (List.mem_cons_of_mem _ hx)
    simp [findSemiIdx, hc, ih hcs]

theorem solveLine_no_semi {line : List Char} (h : ';' ∉ line) (sol : SolMap) :
    solveLine line sol = none := by
  simp [solveLine, findSemiIdx_eq_none h]

theorem fpfLoop_none {bs : List Char} (h : '.' ∉ bs) : ∀ num, fpfLoop bs num = none := by
  induction bs with
  | nil => intro num; rfl
  | cons c cs ih =>
    intro num
    have hc : ¬(c = '.') := by intro hx; exact h (by simp [hx])
    have hcs : '.' ∉ cs := fun hx => h (List.mem_cons_of_mem _ hx)
    simp [fpfLoop, hc, ih hcs]

theorem fastParseFloat64_none {bs : List Char} (h : '.' ∉ bs) :
    fastParseFloat64 bs = none := by
  cases bs with
  | nil => rfl
  | cons c cs =>
    have hcs : '.' ∉ cs := fun hx => h (List.mem_cons_of_mem _ hx)
    by_cases hc : c = '-'
    · simp [fastParseFloat64, hc, fpfLoop_none hcs 0]
    · simp [fastParseFloat64, hc, fpfLoop_none h 0]

theorem lastNLAux_none {b : List Char} (h : '\n' ∉ b) : lastNLAux b = none := by
  induction b with
  | nil => rfl
  | cons c cs ih =>
    have hc : ¬(c = '\n') := by intro hx; exact h (by simp [hx])
    have hcs : '\n' ∉ cs := fun hx => h (List.mem_cons_of_mem _ hx)
    simp [lastNLAux, ih hcs, hc]

theorem lastNLAux_append {t : List Char} (h : '\n' ∉ t) (s : List Char) :
    lastNLAux (s ++ t) = lastNLAux s := by
  induction s with
  | nil => simpa using lastNLAux_none h
  | cons c cs ih => simp [lastNLAux, ih]

theorem lastNLAux_lt_length : ∀ {b : List Char} {j : ℕ},
    lastNLAux b = some j → j < b.length := by
  intro b
  induction b with
  | nil => intro j h; simp [lastNLAux] at h
  | cons c cs ih =>
    intro j h
    simp only [lastNLAux] at h
    cases hcs : lastNLAux cs with
    | some j' =>
      rw [hcs] at h
      simp only [Option.some.injEq] at h
      have := ih hcs
      simp [← h]
      omega
    | none =>
      rw [hcs] at h
      by_cases hc : c = '\n'
      · simp [hc] at h
        simp [← h]
      · simp [hc] at h

theorem sliceGo_append {s t : List Char} {ri fi : ℕ} (h : fi ≤ s.length) :
    sliceGo (s ++ t) ri fi = sliceGo s ri fi := by
  unfold sliceGo
  rcases le_or_lt fi ri with hle | hlt
  · have h0 : fi - ri = 0 := by omega
    simp [h0]
  · have hri : ri ≤ s.length := by omega
    rw [List.drop_append_of_le_length hri]
    rw [List.take_append_of_le_length]
    rw [List.length_drop]
    omega

theorem processBdGo_fuel :
    ∀ (fuel fuel' : ℕ) (b : List Char) (li fi ri : ℕ) (sol : SolMap),
      0 < fuel → li + 2 - fi ≤ fuel → 0 < fuel' → li + 2 - fi ≤ fuel' →
      processBdGo fuel b li fi ri sol = processBdGo fuel' b li fi ri sol := by
  intro fuel
  induction fuel with
  | zero => intro fuel' b li fi ri sol h1 _ _ _; omega
  | succ k ih =>
    intro fuel' b li fi ri sol _ h2 h3 h4
    cases fuel' with
    | zero => omega
    | succ k' =>
      simp only [processBdGo]
      by_cases hfi : fi > li
      · simp [hfi]
      · simp only [hfi, if_false]
        cases b.get? fi with
        | none => rfl
        | some c =>
          by_cases hc : c = '\n'
          · simp only [hc, if_true]
            cases solveLine (sliceGo b ri fi) sol with
            | none => rfl
            | some sol' =>
              exact ih k' b li (fi + educatedJump + 1) (fi + 1) sol'
                (by omega) (by omega) (by omega) (by omega)
          · simp only [hc, if_false]
            exact ih k' b li (fi + 1) ri sol (by omega) (by omega) (by omega) (by omega)

theorem processBdGo_append :
    ∀ (fuel : ℕ) {s t : List Char} {li : ℕ} (fi ri : ℕ) (sol : SolMap),
      li < s.length →
      processBdGo fuel (s ++ t) li fi ri sol = processBdGo fuel s li fi ri sol := by
  intro fuel
  induction fuel with
  | zero => intro s t li fi ri sol _; rfl
  | succ k ih =>
    intro s t li fi ri sol hli
    simp only [processBdGo]
    by_cases hfi : fi > li
    · simp [hfi]
    · simp only [hfi, if_false]
      rw [List.get?_append (by omega)]
      cases s.get? fi with
      | none => rfl
      | some c =>
        by_cases hc : c = '\n'
        · simp only [hc, if_true]
          rw [sliceGo_append (by omega)]
          cases solveLine (sliceGo s ri fi) sol with
          | none => rfl
          | some sol' => exact ih _ _ sol' hli
        · simp only [hc, if_false]
          exact ih _ _ sol hli

theorem readLoopSingle_succ (fuel : ℕ) (remaining carry : List Char) (sol : SolMap) :
    readLoopSingle (fuel + 1) remaining carry sol =
      (if remaining = [] then some sol
       else
        let n := min (readBufferSize - carry.length) remaining.length
        let buffer := carry ++ remaining.take n
        match lastNLAux buffer with
        | none => none
        | some li =>
          match processBdGo (buffer.length + 1) buffer li 0 0 sol with
          | none => none
          | some sol' => readLoopSingle fuel (remaining.drop n) (buffer.drop (li + 1)) sol') :=
  rfl

theorem readLoopSingle_nil {fuel : ℕ} (h : 0 < fuel) (c : List Char) (s : SolMap) :
    readLoopSingle fuel [] c s = some s := by
  cases fuel with
  | zero => omega
  | succ k => rw [readLoopSingle_succ]; simp

/-- A file that fits in one read page is handled by a single iteration of
the single-threaded read loop: find the last newline, process everything
up to and including it, discard the rest at EOF. -/
theorem runSingle_small {f : List Char} (hne : f ≠ []) (hlen : f.length ≤ readBufferSize) :
    runSingleFile f = (lastNLAux f).bind (fun li => processBdGo (f.length + 1) f li 0 0 []) := by
  have hpos : 0 < f.length := List.length_pos.mpr hne
  unfold runSingleFile
  rw [readLoopSingle_succ]
  rw [if_neg hne]
  have hn : min (readBufferSize - ([] : List Char).length) f.length = f.length := by
    simp [Nat.min_eq_right hlen]
  rw [hn]
  simp only [List.nil_append, List.take_length]
  cases h : lastNLAux f with
  | none => simp
  | some li =>
    simp only [Option.bind]
    cases hp : processBdGo (f.length + 1) f li 0 0 [] with
    | none => rfl
    | some sol' =>
      rw [List.drop_length]
      exact readLoopSingle_nil hpos _ _

theorem updateItem_min_le_max (s : solutionItem) (num : ℤ) :
    (updateItem s num).min ≤ (updateItem s num).max := by
  unfold updateItem
  dsimp only
  split <;> split <;> omega

theorem mem_setS : ∀ {m : SolMap} {k : String} {v : solutionItem} {p},
    p ∈ setS m k v → p ∈ m ∨ p = (k, v) := by
  intro m
  induction m with
  | nil =>
    intro k v p hp
    simp [setS] at hp
    exact Or.inr hp
  | cons kv rest ih =>
    intro k v p hp
    unfold setS at hp
    by_cases hk : kv.1 = k
    · rw [if_pos hk] at hp
      rcases List.mem_cons.mp hp with h | h
      · subst hk; exact Or.inr (by simp [h])
      · exact Or.inl (List.mem_cons_of_mem _ h)
    · rw [if_neg hk] at hp
      rcases List.mem_cons.mp hp with h | h
      · exact Or.inl (by simp [h])
      · rcases ih h with h' | h'
        · exact Or.inl (List.mem_cons_of_mem _ h')
        · exact Or.inr h'

theorem lookupS_mem : ∀ {m : SolMap} {k : String} {v : solutionItem},
    lookupS m k = some v → ∃ k₀, (k₀, v) ∈ m := by
  intro m
  induction m with
  | nil => intro k v h; simp [lookupS] at h
  | cons kv rest ih =>
    intro k v h
    unfold lookupS at h
    by_cases hk : kv.1 = k
    · rw [if_pos hk] at h
      refine ⟨kv.1, ?_⟩
      simp only [Option.some.injEq] at h
      simp [← h]
    · rw [if_neg hk] at h
      rcases ih h with ⟨k₀, hk₀⟩
      exact ⟨k₀, List.mem_cons_of_mem _ hk₀⟩

theorem solveLine_entriesOK {line : List Char} {sol sol' : SolMap}
    (hok : EntriesOK sol) (h : solveLine line sol = some sol') : EntriesOK sol' := by
  unfold solveLine at h
  cases hf : findSemiIdx line with
  | none => rw [hf] at h; exact absurd h (by simp)
  | some i =>
    rw [hf] at h
    simp only at h
    cases hp : fastParseFloat64 (line.drop (i + 1)) with
    | none => rw [hp] at h; exact absurd h (by simp)
    | some num =>
      rw [hp] at h
      simp only [Option.some.injEq] at h
      subst h
      intro p hmem _
      rcases mem_setS hmem with hin | heq
      · exact hok p hin (by assumption)
      · subst heq; exact updateItem_min_le_max _ _

theorem processBufGo_entriesOK :
    ∀ (fuel : ℕ) (b : List Char) (fi ri : ℕ) (sol sol' : SolMap),
      EntriesOK sol → processBufGo fuel b fi ri sol = some sol' → EntriesOK sol' := by
  intro fuel
  induction fuel with
  | zero => intro b fi ri sol sol' _ h; exact absurd h (by simp [processBufGo])
  | succ k ih =>
    intro b fi ri sol sol' hok h
    simp only [processBufGo] at h
    by_cases hfi : fi < b.length
    · rw [dif_pos hfi] at h
      by_cases hc : b.get ⟨fi, hfi⟩ = '\n'
      · rw [if_pos hc] at h
        cases hs : solveLine (sliceGo b ri fi) sol with
        | none => rw [hs] at h; exact absurd h (by simp)
        | some sol₁ =>
          rw [hs] at h
          exact ih b _ _ sol₁ sol' (solveLine_entriesOK hok hs) h
      · rw [if_neg hc] at h
        exact ih b _ _ sol sol' hok h
    · rw [dif_neg hfi] at h
      simp only [Option.some.injEq] at h
      subst h
      exact hok

theorem processBdGo_entriesOK :
    ∀ (fuel : ℕ) (b : List Char) (li fi ri : ℕ) (sol sol' : SolMap),
      EntriesOK sol → processBdGo fuel b li fi ri sol = some sol' → EntriesOK sol' := by
  intro fuel
  induction fuel with
  | zero => intro b li fi ri sol sol' _ h; exact absurd h (by simp [processBdGo])
  | succ k ih =>
    intro b li fi ri sol sol' hok h
    simp only [processBdGo] at h
    split at h
    · simp only [Option.some.injEq] at h
      subst h
      exact hok
    · split at h
      · exact absurd h (by simp)
      · split at h
        · split at h
          · exact absurd h (by simp)
          · rename_i sol₁ hs
            exact ih b li _ _ sol₁ sol' (solveLine_entriesOK hok hs) h
        · exact ih b li _ _ sol sol' hok h

theorem mergeItemNew_ok {v : solutionItem} (h : 0 < v.count → v.min ≤ v.max) :
    0 < (mergeItemNew v).count → (mergeItemNew v).min ≤ (mergeItemNew v).max := by
  unfold mergeItemNew
  dsimp only
  intro hc
  exact h (by omega)

theorem mergeItemOld_ok {item v : solutionItem}
    (hi : 0 < item.count → item.min ≤ item.max)
    (hv : 0 < v.count → v.min ≤ v.max) :
    0 < (mergeItemOld item v).count → (mergeItemOld item v).min ≤ (mergeItemOld item v).max := by
  unfold mergeItemOld
  dsimp only
  intro hc
  rcases (by omega : 0 < item.count ∨ 0 < v.count) with h | h
  · have := hi h; split <;> split <;> omega
  · have := hv h; split <;> split <;> omega

theorem mergeOne_entriesOK {sol : SolMap} {kv : String × solutionItem}
    (hsol : EntriesOK sol) (hkv : 0 < kv.2.count → kv.2.min ≤ kv.2.max) :
    EntriesOK (match lookupS sol kv.1 with
               | none => setS sol kv.1 (mergeItemNew kv.2)
               | some item => setS sol kv.1 (mergeItemOld item kv.2)) := by
  cases hl : lookupS sol kv.1 with
  | none =>
    intro p hp hc
    rcases mem_setS hp with hin | heq
    · exact hsol p hin hc
    · subst heq; exact mergeItemNew_ok hkv hc
  | some item =>
    intro p hp hc
    rcases mem_setS hp with hin | heq
    · exact hsol p hin hc
    · subst heq
      rcases lookupS_mem hl with ⟨k₀, hk₀⟩
      exact mergeItemOld_ok (hsol (k₀, item) hk₀) hkv hc

theorem mergeStep_entriesOK :
    ∀ (shard sol : SolMap), EntriesOK sol → EntriesOK shard →
      EntriesOK (mergeStep sol shard) := by
  intro shard
  induction shard with
  | nil => intro sol h _; exact h
  | cons kv rest ih =>
    intro sol hsol hshard
    have hrest : EntriesOK rest := fun p hp => hshard p (List.mem_cons_of_mem _ hp)
    have hkv : 0 < kv.2.count → kv.2.min ≤ kv.2.max :=
      hshard kv (List.mem_cons_self _ _)
    exact ih _ (mergeOne_entriesOK hsol hkv) hrest

theorem mergeFold_entriesOK :
    ∀ (shards : List SolMap) (acc : SolMap), EntriesOK acc →
      (∀ s ∈ shards, EntriesOK s) → EntriesOK (shards.foldl mergeStep acc) := by
  intro shards
  induction shards with
  | nil => intro acc h _; exact h
  | cons s rest ih =>
    intro acc hacc hall
    exact ih _ (mergeStep_entriesOK s acc hacc (hall s (List.mem_cons_self _ _)))
      (fun s' hs' => hall s' (List.mem_cons_of_mem _ hs'))

theorem readLoopSingle_entriesOK :
    ∀ (fuel : ℕ) (remaining carry : List Char) (sol sol' : SolMap),
      EntriesOK sol → readLoopSingle fuel remaining carry sol = some sol' → EntriesOK sol' := by
  intro fuel
  induction fuel with
  | zero => intro r c sol sol' _ h; exact absurd h (by simp [readLoopSingle])
  | succ k ih =>
    intro r c sol sol' hok h
    rw [readLoopSingle_succ] at h
    split at h
    · simp only [Option.some.injEq] at h
      subst h
      exact hok
    · dsimp only at h
      split at h
      · exact absurd h (by simp)
      · split at h
        · exact absurd h (by simp)
        · rename_i sol₁ hp
          exact ih _ _ sol₁ sol' (processBdGo_entriesOK _ _ _ _ _ _ _ hok hp) h

theorem shards_entriesOK :
    ∀ (chunks : List (List Char)) (shards : List SolMap),
      chunks.mapM (fun c => processBuffer c []) = some shards →
      ∀ s ∈ shards, EntriesOK s := by
  intro chunks
  induction chunks with
  | nil =>
    intro shards h s hs
    simp only [List.mapM_nil, Option.pure_def, Option.some.injEq] at h
    subst h
    simp at hs
  | cons chunk rest ih =>
    intro shards h s hs
    simp only [List.mapM_cons, Option.pure_def, Option.bind_eq_bind, Option.bind_eq_some,
      Option.some.injEq] at h
    rcases h with ⟨s₁, hs₁, rest', hrest', heq⟩
    subst heq
    rcases List.mem_cons.mp hs with h' | h'
    · subst h'
      exact processBufGo_entriesOK _ _ _ _ _ _ (fun p hp => absurd hp (List.not_mem_nil p)) hs₁
    · exact ih rest' hrest' s h'

theorem floor_nat_div_add_half (m c : ℕ) (hc : 0 < c) :
    ⌊(m : ℚ) / (c : ℚ) + 1 / 2⌋ = (((2 * m + c) / (2 * c) : ℕ) : ℤ) := by
  have hcq : (0 : ℚ) < (c : ℚ) := by exact_mod_cast hc
  have hx : (m : ℚ) / (c : ℚ) + 1 / 2 = ((2 * m + c : ℕ) : ℚ) / ((2 * c : ℕ) : ℚ) := by
    push_cast
    field_simp
    ring
  rw [hx]
  set q := (2 * m + c) / (2 * c) with hqdef
  set r := (2 * m + c) % (2 * c) with hrdef
  have hmod : 2 * c * q + r = 2 * m + c := Nat.div_add_mod (2 * m + c) (2 * c)
  have hrlt : r < 2 * c := Nat.mod_lt _ (by omega)
  have h2cq : (0 : ℚ) < ((2 * c : ℕ) : ℚ) := by
    have h0 : (0 : ℕ) < 2 * c := by omega
    exact_mod_cast h0
  have hQ : ((2 * m + c : ℕ) : ℚ) = 2 * (c : ℚ) * (q : ℚ) + (r : ℚ) := by
    rw [← hmod]
    push_cast
    ring
  have h2c : ((2 * c : ℕ) : ℚ) = 2 * (c : ℚ) := by push_cast; ring
  rw [Int.floor_eq_iff]
  constructor
  · rw [le_div_iff₀ h2cq, hQ, h2c]
    have hr0 : (0 : ℚ) ≤ (r : ℚ) := by positivity
    push_cast
    nlinarith
  · rw [div_lt_iff₀ h2cq, hQ, h2c]
    have hrq : (r : ℚ) < 2 * (c : ℚ) := by exact_mod_cast hrlt
    push_cast
    nlinarith

theorem roundAwayDiv_eq_goRound (a : ℤ) (c : ℕ) (hc : 0 < c) :
    roundAwayDiv a c = goRound ((a : ℚ) / (c : ℚ)) := by
  have hcq : (0 : ℚ) < (c : ℚ) := by exact_mod_cast hc
  unfold roundAwayDiv goRound
  by_cases ha : a < 0
  · have haq : ((a : ℚ)) < 0 := by exact_mod_cast ha
    have hq : (a : ℚ) / (c : ℚ) < 0 := div_neg_of_neg_of_pos haq hcq
    rw [if_pos ha, if_pos hq]
    congr 1
    have hrw : -((a : ℚ) / (c : ℚ)) = ((a.natAbs : ℕ) : ℚ) / (c : ℚ) := by
      rw [← neg_div]
      congr 1
      rw [Int.cast_natAbs, Int.cast_abs, abs_of_neg haq]
    rw [hrw, floor_nat_div_add_half _ _ hc]
  · have ha' : 0 ≤ a := by omega
    have haq : (0 : ℚ) ≤ (a : ℚ) := by exact_mod_cast ha'
    have hq : ¬((a : ℚ) / (c : ℚ) < 0) := not_lt.mpr (div_nonneg haq (le_of_lt hcq))
    rw [if_neg ha, if_neg hq]
    have hrw : (a : ℚ) / (c : ℚ) = ((a.natAbs : ℕ) : ℚ) / (c : ℚ) := by
      congr 1
      rw [Int.cast_natAbs, Int.cast_abs, abs_of_nonneg haq]
    rw [hrw, floor_nat_div_add_half _ _ hc]

/-- The reported mean agrees with the specification's formula: the code's
integer computation of the mean (in tenths) equals rounding
`10 × sum / count` half away from zero, where `sum` is the accumulated
float `goFloat acc`. -/
theorem meanTenths_eq_goRound {it : solutionItem} (hc : 0 < it.count) :
    meanTenths it = goRound (10 * goFloat it.acc / (it.count : ℚ)) := by
  have hcq : ((it.count : ℚ)) ≠ 0 := by
    have : (0 : ℚ) < (it.count : ℚ) := by exact_mod_cast hc
    exact ne_of_gt this
  unfold meanTenths
  rw [roundAwayDiv_eq_goRound _ _ hc]
  congr 1
  unfold goFloat
  field_simp

theorem lookupS_mem_self : ∀ {m : SolMap} {k : String} {v : solutionItem},
    lookupS m k = some v → (k, v) ∈ m := by
  intro m
  induction m with
  | nil => intro k v h; simp [lookupS] at h
  | cons kv rest ih =>
    intro k v h
    unfold lookupS at h
    by_cases hk : kv.1 = k
    · rw [if_pos hk] at h
      simp only [Option.some.injEq] at h
      subst h
      subst hk
      exact List.mem_cons_self _ _
    · rw [if_neg hk] at h
      exact List.mem_cons_of_mem _ (ih h)

theorem mem_insertSorted {x y : String} : ∀ {l : List String},
    x ∈ insertSorted y l ↔ x = y ∨ x ∈ l := by
  intro l
  induction l with
  | nil => simp [insertSorted]
  | cons z zs ih =>
    unfold insertSorted
    by_cases hle : leStr y z
    · simp [hle]
    · simp [hle, ih]
      tauto

theorem mem_sortStrings {x : String} : ∀ {l : List String},
    x ∈ sortStrings l ↔ x ∈ l := by
  intro l
  induction l with
  | nil => simp [sortStrings]
  | cons y ys ih =>
    simp [sortStrings, mem_insertSorted, ih]

theorem fmtLine_mem_printMap {m : SolMap} {k : String} {it : solutionItem}
    (h : lookupS m k = some it) : fmtLine k it ∈ printMap m := by
  unfold printMap
  have hk : k ∈ sortKeys m := by
    unfold sortKeys
    rw [mem_sortStrings]
    exact List.mem_map_of_mem Prod.fst (lookupS_mem_self h)
  have hmem := List.mem_map_of_mem
    (fun k => fmtLine k ((lookupS m k).getD zeroItem)) hk
  simpa [h] using hmem

theorem digitChar_isDigit {d : ℕ} (hd : d < 10) : (digitChar d).isDigit = true := by
  interval_cases d <;> decide

theorem natChars_digits : ∀ (fuel n : ℕ), ∀ c ∈ natChars fuel n, c.isDigit = true := by
  intro fuel
  induction fuel with
  | zero => intro n c hc; simp [natChars] at hc
  | succ k ih =>
    intro n c hc
    unfold natChars at hc
    by_cases hn : n < 10
    · rw [if_pos hn] at hc
      simp only [List.mem_singleton] at hc
      subst hc
      exact digitChar_isDigit hn
    · rw [if_neg hn] at hc
      rcases List.mem_append.mp hc with h | h
      · exact ih _ c h
      · simp only [List.mem_singleton] at h
        subst h
        exact digitChar_isDigit (Nat.mod_lt _ (by omega))

theorem isDigit_ne_dot {c : Char} (h : c.isDigit = true) : c ≠ '.' := by
  intro hc
  subst hc
  exact absurd h (by decide)

/-- Every formatted field has exactly one fractional digit. -/
theorem fmtTenths_oneFrac (t : ℤ) : OneFrac (fmtTenths t) := by
  refine ⟨(if t < 0 then ['-'] else []) ++ natStrGo (t.natAbs / 10),
    digitChar (t.natAbs % 10), ?_, ?_, ?_⟩
  · show ((if t < 0 then ['-'] else []) ++
      natStrGo (t.natAbs / 10) ++ ['.'] ++ [digitChar (t.natAbs % 10)]) = _
    simp [List.append_assoc]
  · exact digitChar_isDigit (Nat.mod_lt _ (by omega))
  · intro hmem
    rcases List.mem_append.mp hmem with h | h
    · by_cases ht : t < 0
      · rw [if_pos ht] at h
        simp at h
      · rw [if_neg ht] at h
        simp at h
    · exact isDigit_ne_dot (natChars_digits _ _ _ h) rfl

/-! Claim theorems. -/

/-- C1.  The claim fails on the code: on the file `A;1.0\nB;2.0\n` the
concurrent reader hands the worker the chunk `A;1.0\nB;2.0` — which does
not end at a line boundary, the trailing newline at the chunk boundary
being excluded (`bufferLen: li` instead of `li + 1`) — and
`processBuffer`, which only fires `solveLine` at a `'\n'`, therefore
never processes the complete line `B;2.0`: that line is processed zero
times across the whole pipeline. -/
theorem c1_chunk_excludes_boundary_and_drops_line :
    readChunksConcFile fileAB = some [chunkAB] ∧
    chunkAB.getLast? ≠ some '\n' ∧
    processBuffer chunkAB [] = some [("A", ⟨0, 10, 1, 10⟩)] ∧
    lookupS [("A", ⟨0, 10, 1, 10⟩)] "B" = none := by
  refine ⟨by decide, by decide, by decide, by decide⟩

/-- C2.  The claim fails on the code: the first observation of station
`A` with value `10.5` inserts the Go zero value `&solutionItem{}` and
updates it, leaving `min = 0` (the guard `s.min > num` is false for a
positive value), not `min = max = 10.5` as claimed. -/
theorem c2_first_observation_eval :
    solveLine ("A;10.5".toList) [] = some [("A", ⟨0, 105, 1, 105⟩)] ∧
    (solutionItem.min ⟨0, 105, 1, 105⟩ ≠ 105 ∨ solutionItem.max ⟨0, 105, 1, 105⟩ ≠ 105) ∧
    solveLine ("A;10.5".toList) [] ≠ some [("A", ⟨105, 105, 1, 105⟩)] := by
  refine ⟨by decide, by decide, by decide⟩

/-- C3.  The claim fails on the code: merging the shards produced by
`A;1.0` and `A;2.0` in the two possible orders yields different
`MergedResult`s (`acc` 4.0 versus 5.0), because the first-insertion
branch of the merge aliases `item` and `v` and doubles `acc` and
`count`; neither result equals the claimed
(sum of counts, sum of sums, min of mins, max of maxes) = `⟨0, 20, 2, 30⟩`. -/
theorem c3_merge_order_dependent :
    mergeShards [[("A", ⟨0, 10, 1, 10⟩)], [("A", ⟨0, 20, 1, 20⟩)]] =
      [("A", ⟨0, 20, 3, 40⟩)] ∧
    mergeShards [[("A", ⟨0, 20, 1, 20⟩)], [("A", ⟨0, 10, 1, 10⟩)]] =
      [("A", ⟨0, 20, 3, 50⟩)] ∧
    mergeShards [[("A", ⟨0, 10, 1, 10⟩)], [("A", ⟨0, 20, 1, 20⟩)]] ≠
      mergeShards [[("A", ⟨0, 20, 1, 20⟩)], [("A", ⟨0, 10, 1, 10⟩)]] ∧
    lookupS (mergeShards [[("A", ⟨0, 10, 1, 10⟩)], [("A", ⟨0, 20, 1, 20⟩)]]) "A" ≠
      some ⟨0, 20, 2, 30⟩ := by
  refine ⟨by decide, by decide, by decide, by decide⟩

/-- C4.  The claim fails on the code: on the scenario file the
single-threaded program prints `Oslo=-2.1 / -2.1 / 0.0` and
`Paris=0.0 / 11.4 / 12.3` (zero-initialised minimum and maximum), and
the concurrent program prints only the Paris line (the chunk's last
line `Oslo;-2.1` is dropped); neither equals the claimed output. -/
theorem c4_scenario_eval :
    solve1brcSingleOut fileScenario =
      some ["Oslo=-2.1/-2.1/0.0", "Paris=0.0/11.4/12.3"] ∧
    concOutcome fileScenario = .ok ["Paris=0.0/11.4/12.3"] ∧
    solve1brcSingleOut fileScenario ≠
      some ["Oslo=-2.1/-2.1/-2.1", "Paris=10.5/11.4/12.3"] ∧
    concOutcome fileScenario ≠ .ok ["Oslo=-2.1/-2.1/-2.1", "Paris=10.5/11.4/12.3"] := by
  refine ⟨by decide, by decide, by decide, by decide⟩

/-- C7, counterexample.  The claim requires a non-zero exit whenever the
input file is unreadable; but when `os.Open` fails, `solve1brc` returns
the error, `gracefullyHanldeErrors` panics, and the deferred
`panicHandler` recovers and merely logs it, so `main` returns normally:
the process exits with status 0 and no output. -/
theorem c7_cex_unreadable_exits_zero :
    runMainModel none = (0, []) := by decide

/-- C7, amended.  The process exits 0 after emitting the full output on
success; it also exits 0, with no output, when the file is unreadable or
when the staging buffer holds no newline (the reader's panic in the main
goroutine is recovered by `panicHandler`); a record with a non-digit
byte is accepted silently (exit 0, wrong output); only a panic inside a
worker goroutine — a record with no `';'` — is unrecovered and aborts
the process with Go's runtime status 2. -/
theorem c7_exit_codes :
    runMainModel none = (0, []) ∧
    runMainModel (some fileNoNL) = (0, []) ∧
    runMainModel (some fileAB) = (0, ["A=0.0/1.0/1.0"]) ∧
    runMainModel (some fileBadDigit) = (0, ["A=0.0/72.5/72.5"]) ∧
    runMainModel (some fileNoSemi) = (2, []) := by
  refine ⟨by decide, by decide, by decide, by decide, by decide⟩

/-- C5, counterexample.  The claim requires the final record of a file
lacking a trailing newline to be parsed and included; but on
`B;2.0\nA;1.0` the single-threaded run aggregates only station `B`: at
end-of-file the carried-over partial line `A;1.0` is discarded without
being parsed. -/
theorem c5_cex_trailing_record_dropped :
    runSingleFile fileBA = some [("B", ⟨0, 20, 1, 20⟩)] ∧
    lookupS [("B", ⟨0, 20, 1, 20⟩)] "A" = none ∧
    solve1brcSingleOut fileBA = some ["B=0.0/2.0/2.0"] := by
  refine ⟨by decide, by decide, by decide⟩

/-- C5, amended.  A final record lacking a trailing newline is not
parsed: the read loop only processes bytes up to (and including) the
last newline of the staging buffer, and at end-of-file the carried-over
partial line is discarded, so appending a newline-free suffix to a file
(that fits in one read page) leaves the single-threaded result
unchanged — the trailing record is dropped from the aggregates. -/
theorem c5_trailing_partial_dropped :
    ∀ s t : List Char, '\n' ∈ s → '\n' ∉ t → (s ++ t).length ≤ readBufferSize →
      runSingleFile (s ++ t) = runSingleFile s := by
  intro s t hs ht hlen
  have hsne : s ≠ [] := by intro h; subst h; simp at hs
  have hstne : s ++ t ≠ [] := by simp [hsne]
  have hslen : s.length ≤ readBufferSize := by
    rw [List.length_append] at hlen; omega
  rw [runSingle_small hstne hlen, runSingle_small hsne hslen]
  rw [lastNLAux_append ht]
  cases h : lastNLAux s with
  | none => rfl
  | some li =>
    have hli : li < s.length := lastNLAux_lt_length h
    simp only [Option.bind_some, Option.some_bind]
    rw [processBdGo_append _ 0 0 [] hli]
    exact processBdGo_fuel _ _ s li 0 0 []
      (by omega) (by rw [List.length_append]; omega) (by omega) (by omega)

/-- Witness for C5 at a concrete input: appending the unterminated
record `A;1.0` to `B;2.0\n` does not change the single-threaded
result. -/
theorem c5_trailing_partial_dropped_witness :
    runSingleFile ("B;2.0\n".toList ++ "A;1.0".toList) = runSingleFile ("B;2.0\n".toList) :=
  c5_trailing_partial_dropped _ _ (by decide) (by decide) (by decide)

/-- C6, counterexample.  The claim requires a MalformedRecord failure
when a non-digit byte appears where a digit is required; but on the line
`A;x.5` the parser succeeds silently, accumulating `'x' - '0' = 72` as
the integer part and yielding 72.5. -/
theorem c6_cex_nondigit_accepted :
    solveLine ("A;x.5".toList) [] = some [("A", ⟨0, 725, 1, 725⟩)] := by decide

/-- C6, amended.  The line parser performs no validation and has no
MalformedRecord condition: a line with no `';'` makes the separator scan
run off the end of the slice — a Go index panic (a crash), not an error
value; a value field with no `'.'` likewise panics; and a non-digit byte
where a digit is required is accepted silently, contributing
`byte - '0'` to the value (`A;x.5` parses as 72.5). -/
theorem c6_parser_no_validation :
    (∀ line sol, ';' ∉ line → solveLine line sol = none) ∧
    (∀ bs, '.' ∉ bs → fastParseFloat64 bs = none) ∧
    solveLine ("A;x.5".toList) [] = some [("A", ⟨0, 725, 1, 725⟩)] :=
  ⟨fun _ sol h => solveLine_no_semi h sol, fun _ h => fastParseFloat64_none h, by decide⟩

/-- Witness for C6 at concrete inputs: the line `Ax.5` (no `';'`)
panics, and the byte slice `A5` (no `'.'`) panics. -/
theorem c6_parser_no_validation_witness :
    solveLine ("Ax.5".toList) [] = none ∧ fastParseFloat64 ("A5".toList) = none :=
  ⟨c6_parser_no_validation.1 _ [] (by decide), c6_parser_no_validation.2.1 _ (by decide)⟩

/-- C8.  Confirmed: whenever `count > 0`, `minimum ≤ maximum` holds for
every record reachable during a run — each per-line fold (including the
first insertion, whose zero value has `min = 0 ≤ 0 = max`), each merge
step, the whole merge, the single-threaded run's final aggregator, and
the merged result of the concurrent run's shards all preserve the
invariant. -/
theorem c8_min_le_max_invariant :
    (∀ (line : List Char) (sol sol' : SolMap),
       EntriesOK sol → solveLine line sol = some sol' → EntriesOK sol') ∧
    (∀ sol shard : SolMap,
       EntriesOK sol → EntriesOK shard → EntriesOK (mergeStep sol shard)) ∧
    (∀ shards : List SolMap,
       (∀ s ∈ shards, EntriesOK s) → EntriesOK (mergeShards shards)) ∧
    (∀ (file : List Char) (m : SolMap),
       runSingleFile file = some m → EntriesOK m) ∧
    (∀ (file : List Char) (chunks : List (List Char)) (shards : List SolMap),
       readChunksConcFile file = some chunks →
       chunks.mapM (fun c => processBuffer c []) = some shards →
       EntriesOK (mergeShards shards)) := by
  refine ⟨fun _ _ _ hok h => solveLine_entriesOK hok h,
          fun sol shard hok hsh => mergeStep_entriesOK shard sol hok hsh,
          fun shards hall => mergeFold_entriesOK shards [] ?_ hall,
          fun file m h => readLoopSingle_entriesOK _ _ _ _ _ ?_ h,
          fun _ chunks shards _ hsh =>
            mergeFold_entriesOK shards [] ?_ (shards_entriesOK chunks shards hsh)⟩ <;>
    exact fun p hp => absurd hp (List.not_mem_nil p)

/-- Witness for C8: the single-threaded run on `A;1.0\n` yields an
aggregator satisfying the invariant. -/
theorem c8_min_le_max_invariant_witness :
    runSingleFile ("A;1.0\n".toList) = some [("A", ⟨0, 10, 1, 10⟩)] ∧
    EntriesOK [("A", ⟨0, 10, 1, 10⟩)] :=
  ⟨by decide,
   c8_min_le_max_invariant.2.2.2.1 ("A;1.0\n".toList)
     [("A", ⟨0, 10, 1, 10⟩)] (by decide)⟩

/-- C9.  Confirmed: for every station of the merged result with
`count > 0`, the program emits the line `name=min/mean/max` built by
`fmtLine`, whose mean field is exactly `round(10 × sum / count) / 10`
with rounding half away from zero (the code's integer computation
`meanTenths` is proved equal to the rational formula), and each of the
three numeric fields is formatted with exactly one fractional digit. -/
theorem c9_mean_formula_and_format :
    ∀ (shards : List SolMap) (k : String) (it : solutionItem),
      lookupS (mergeShards shards) k = some it → 0 < it.count →
      fmtLine k it ∈ printSolutions shards ∧
      meanTenths it = goRound (10 * goFloat it.acc / (it.count : ℚ)) ∧
      OneFrac (fmtTenths it.min) ∧
      OneFrac (fmtTenths (meanTenths it)) ∧
      OneFrac (fmtTenths it.max) := by
  intro shards k it h hc
  exact ⟨fmtLine_mem_printMap h, meanTenths_eq_goRound hc,
    fmtTenths_oneFrac _, fmtTenths_oneFrac _, fmtTenths_oneFrac _⟩

/-- Witness for C9 at a concrete merged result: the single shard from
`A;1.0` merges to `A ↦ ⟨0, 10, 2, 20⟩`, whose line appears in the
output with the rounded mean and one-fractional-digit fields. -/
theorem c9_mean_formula_and_format_witness :
    lookupS (mergeShards [[("A", ⟨0, 10, 1, 10⟩)]]) "A" = some ⟨0, 10, 2, 20⟩ ∧
    0 < (2 : ℕ) ∧
    (fmtLine "A" ⟨0, 10, 2, 20⟩ ∈ printSolutions [[("A", ⟨0, 10, 1, 10⟩)]] ∧
     meanTenths ⟨0, 10, 2, 20⟩ = goRound (10 * goFloat 20 / ((2 : ℕ) : ℚ)) ∧
     OneFrac (fmtTenths 0) ∧
     OneFrac (fmtTenths (meanTenths ⟨0, 10, 2, 20⟩)) ∧
     OneFrac (fmtTenths 10)) :=
  ⟨by decide, by decide,
   c9_mean_formula_and_format [[("A", ⟨0, 10, 1, 10⟩)]] "A" ⟨0, 10, 2, 20⟩
     (by decide) (by decide)⟩

/-- C10.  The claim fails on the code: on `A;1.0\nB;2.0\n` the
single-threaded `solve1brc` emits lines for both stations while the
concurrent `solve1brc` emits only the line for `A` (the chunk's last
line is dropped), so the two implementations do not produce identical
output. -/
theorem c10_single_vs_concurrent_eval :
    solve1brcSingleOut fileAB = some ["A=0.0/1.0/1.0", "B=0.0/2.0/2.0"] ∧
    concOutcome fileAB = .ok ["A=0.0/1.0/1.0"] ∧
    some ["A=0.0/1.0/1.0", "B=0.0/2.0/2.0"] ≠ some ["A=0.0/1.0/1.0"] := by
  refine ⟨by decide, by decide, by decide⟩

end OneBrc
